import Mathlib

/-!
Verification of the online learning-to-rank feedback pipeline
(`oltr/online_ltr.py`): query data model, click truncation, index
remapping, history accumulation, explore-then-exploit scheduling,
retraining-data assembly and ranker evaluation.

Machine reals only enter the source through order comparisons
(sorting scores and tie-breakers), so scores and tie-breakers are
embedded as rationals; relevance labels and clicks are naturals.
-/

/-- The query collection as seen by `OnlineLTR` (`Queries` collaborator):
`n_queries`, per-query `document_count`, the global row-offset index
`query_indptr`, and per-query `relevance_scores`. -/
structure QSet where
  n_queries : ℕ
  document_count : ℕ → ℕ
  query_indptr : ℕ → ℕ
  relevance_scores : ℕ → List ℕ

/-- One element of `self.observed_training_data` as appended at
line 129: the per-query global-row-index arrays `train_indices`, the
concatenated truncated click labels `train_labels`, and the per-query
group sizes `train_q_list_sizes`. -/
structure Entry where
  train_indices : List (List ℕ)
  train_labels : List ℕ
  train_q_list_sizes : List ℕ
  deriving DecidableEq

/-- The mutable state of an `OnlineLTR` instance relevant to the
pipeline: the `observed_training_data` list. -/
structure OnlineLTRState where
  observed_training_data : List Entry
  deriving DecidableEq

/-- The training data assembled by `update_ranker` (lines 136-143) and
passed to `LGBMRanker.fit`: flattened per-query index arrays, the
concatenated labels and the concatenated group sizes. -/
structure TrainData where
  train_indices : List (List ℕ)
  train_labels : List ℕ
  train_q_list_sizes : List ℕ
  deriving DecidableEq

/-- Computes `np.where(click)[0][-1] + 1` on a click vector: one past the index
of the last nonzero entry, or `0` when every entry is zero. -/
def where_last_succ : List ℕ → ℕ
  | [] => 0
  | c :: cs =>
    if where_last_succ cs = 0 then (if c ≠ 0 then 1 else 0)
    else where_last_succ cs + 1

/-- The truncation point of one click vector (lines 111-115): the full
length when no click occurred (`sum(click) == 0`), otherwise the index
of the last click plus one. -/
def last_pos (click : List ℕ) : ℕ :=
  if click.sum = 0 then click.length else where_last_succ click

/-- Line 118: `self.train_qset.query_indptr[qid] + rankings[i][:last_pos[i]]`,
the kept local ranking positions of one query mapped to global row
indices. -/
def per_query_indices (qset : QSet) (qid : ℕ) (click ranking : List ℕ) :
    List ℕ :=
  (ranking.take (last_pos click)).map (fun r => qset.query_indptr qid + r)

/-- Embeds `OnlineLTR.generate_training_data_from_clicks` (lines 95-130):
truncate each click vector at `last_pos`, remap kept local positions to
global row indices, and append one `(train_indices, train_labels,
train_q_list_sizes)` entry to `observed_training_data`. -/
def generate_training_data_from_clicks (qset : QSet) (st : OnlineLTRState)
    (query_ids : List ℕ) (clicks rankings : List (List ℕ)) :
    OnlineLTRState :=
  let train_indices := List.zipWith
    (fun qid cr => per_query_indices qset qid cr.1 cr.2)
    query_ids (clicks.zip rankings)
  let train_labels := (clicks.map (fun c => c.take (last_pos c))).flatten
  let train_q_list_sizes := train_indices.map List.length
  { observed_training_data := st.observed_training_data ++
      [⟨train_indices, train_labels, train_q_list_sizes⟩] }

/-- Embeds `OnlineLTR.update_ranker` (lines 132-146) up to the external
`LGBMRanker.fit` call: raise `ValueError` on an empty history, else
assemble the concatenation of every historical batch. -/
def update_ranker (st : OnlineLTRState) : Except String TrainData :=
  if st.observed_training_data.isEmpty then
    Except.error ("OnlineLTR.generate_training_data_from_clicks()" ++
      "should be called before OnlineLTR.update_ranker().")
  else
    Except.ok ⟨(st.observed_training_data.map Entry.train_indices).flatten,
      (st.observed_training_data.map Entry.train_labels).flatten,
      (st.observed_training_data.map Entry.train_q_list_sizes).flatten⟩

/-- Embeds `apply_click_model_to_labels_and_scores` (lines 78-93): feed each
query's relevance labels, reordered by its ranking, to the click model.
The click model is a fallible collaborator (`Option`-valued): `none`
models an exception, which aborts the whole list comprehension. -/
def apply_click_model_to_labels_and_scores
    (click_model : List ℕ → Option (List ℕ))
    (labels rankings : List (List ℕ)) : Option (List (List ℕ)) :=
  (List.range rankings.length).mapM
    (fun i => click_model
      ((rankings.getD i []).map (fun r => (labels.getD i []).getD r 0)))

/-- The feedback-collection phase of `update_learner` (lines 166-172)
after the sampled ids, labels and rankings are drawn: simulate clicks,
then append one history entry.  A click-model exception propagates
before `generate_training_data_from_clicks` runs, so on `error` the
state is the one from before the call. -/
def update_learner_collect (qset : QSet)
    (click_model : List ℕ → Option (List ℕ)) (st : OnlineLTRState)
    (query_ids : List ℕ) (labels rankings : List (List ℕ)) :
    Except OnlineLTRState OnlineLTRState :=
  match apply_click_model_to_labels_and_scores click_model labels rankings with
  | none => Except.error st
  | some clicks =>
      Except.ok (generate_training_data_from_clicks qset st query_ids clicks
        rankings)

/-- A sequence of feedback-collection calls, each with its sampled query
ids, click vectors and rankings, applied in order to the learner
state. -/
def run_feedback_calls (qset : QSet) (st : OnlineLTRState) :
    List (List ℕ × List (List ℕ) × List (List ℕ)) → OnlineLTRState
  | [] => st
  | call :: rest => run_feedback_calls qset
      (generate_training_data_from_clicks qset st call.1 call.2.1 call.2.2)
      rest

/-- The mutable state of an `ExploreThenExploitOLTR` instance
(lines 206-227): the exploration threshold, the iteration counter and
the inherited observed history. -/
structure EteState where
  num_explore_iterations : ℕ
  iteration : ℕ
  observed_training_data : List Entry
  deriving DecidableEq

/-- The ranker selection of `ExploreThenExploitOLTR.get_labels_and_rankings`
(lines 216-222): replace the supplied ranker by `None` while
`iteration < num_explore_iterations`. -/
def ete_select_ranker {R : Type} (st : EteState) (ranker : Option R) :
    Option R :=
  if st.iteration < st.num_explore_iterations then none else ranker

/-- Feedback collection on an `ExploreThenExploitOLTR`: the inherited
`generate_training_data_from_clicks` touches only the history. -/
def ete_generate_training_data (qset : QSet) (st : EteState)
    (query_ids : List ℕ) (clicks rankings : List (List ℕ)) : EteState :=
  { st with observed_training_data :=
      (generate_training_data_from_clicks qset ⟨st.observed_training_data⟩
        query_ids clicks rankings).observed_training_data }

/-- Embeds `ExploreThenExploitOLTR.update_ranker` (lines 224-227): increment
`self.iteration`, then delegate to `OnlineLTR.update_ranker`.  The
increment happens before the delegated call, so it survives a raised
`ValueError`; the returned pair is (state after the call, outcome). -/
def ete_update_ranker (st : EteState) : EteState × Except String TrainData :=
  let st' : EteState := { st with iteration := st.iteration + 1 }
  (st', update_ranker ⟨st'.observed_training_data⟩)

/-- Embeds `np.lexsort((tie_breakers, -scores))` on one query's slice
(lines 71-74 and 193-198): the indices `0..n-1` ordered by score
descending, ties broken by tie-breaker ascending, stably. -/
def lexsort_ranking (scores ties : List ℚ) : List ℕ :=
  (List.range scores.length).mergeSort (fun i j =>
    decide (scores.getD j 0 < scores.getD i 0 ∨
      (scores.getD i 0 = scores.getD j 0 ∧ ties.getD i 0 ≤ ties.getD j 0)))

/-- Computes `np.mean` over a list of rationals. -/
def np_mean (l : List ℚ) : ℚ := l.sum / (l.length : ℚ)

/-- Embeds `OnlineLTR.evaluate_ranker` (lines 177-204): rank every selected
query's documents by predicted score with random tie-breaking, apply
the metric to the reordered relevance labels of each query, and return
the mean.  `scores` is the `ranker.predict` output on the evaluation
set's feature rows and `tie_breakers` the drawn row-wise randomness. -/
def evaluate_ranker (qset : QSet) (scores tie_breakers : List ℚ)
    (metric : List ℕ → ℕ → ℚ) (cutoff : ℕ) : ℚ :=
  let rankings := (List.range qset.n_queries).map (fun i =>
    lexsort_ranking
      ((scores.drop (qset.query_indptr i)).take
        (qset.query_indptr (i + 1) - qset.query_indptr i))
      ((tie_breakers.drop (qset.query_indptr i)).take
        (qset.query_indptr (i + 1) - qset.query_indptr i)))
  let ndcgs := (List.range qset.n_queries).map (fun qid =>
    metric ((rankings.getD qid []).map
      (fun r => (qset.relevance_scores qid).getD r 0)) cutoff)
  np_mean ndcgs

theorem where_last_succ_le (l : List ℕ) : where_last_succ l ≤ l.length := by
  induction l with
  | nil => simp [where_last_succ]
  | cons c cs ih =>
    simp only [where_last_succ, List.length_cons]
    split
    · split
      · omega
      · exact Nat.zero_le _
    · omega

theorem where_last_succ_eq_zero_iff (l : List ℕ) :
    where_last_succ l = 0 ↔ l.sum = 0 := by
  induction l with
  | nil => simp [where_last_succ]
  | cons c cs ih =>
    by_cases h0 : where_last_succ cs = 0
    · have hs : cs.sum = 0 := ih.mp h0
      by_cases hc : c = 0
      · simp [where_last_succ, h0, hc, hs]
      · simp [where_last_succ, h0, hc, hs]
    · have hs : cs.sum ≠ 0 := fun hh => h0 (ih.mpr hh)
      simp only [where_last_succ, h0, if_false, List.sum_cons]
      omega

theorem where_last_succ_getD (l : List ℕ) (h : where_last_succ l ≠ 0) :
    l.getD (where_last_succ l - 1) 0 ≠ 0 := by
  induction l with
  | nil => simp [where_last_succ] at h
  | cons c cs ih =>
    by_cases h0 : where_last_succ cs = 0
    · by_cases hc : c = 0
      · simp [where_last_succ, h0, hc] at h
      · simp [where_last_succ, h0, hc]
    · obtain ⟨k, hk⟩ : ∃ k, where_last_succ cs = k + 1 :=
        ⟨where_last_succ cs - 1, (Nat.succ_pred_eq_of_pos
          (Nat.pos_of_ne_zero h0)).symm⟩
      have hcs := ih h0
      rw [hk] at hcs
      simp only [where_last_succ, h0, if_false, hk]
      simpa using hcs

theorem where_last_succ_zero_after (l : List ℕ) :
    ∀ j, where_last_succ l ≤ j → l.getD j 0 = 0 := by
  induction l with
  | nil => intro j _; simp
  | cons c cs ih =>
    intro j hj
    by_cases h0 : where_last_succ cs = 0
    · by_cases hc : c = 0
      · cases j with
        | zero => simpa using hc
        | succ k => simpa using ih k (by omega)
      · simp only [where_last_succ, h0, if_pos rfl, hc, ne_eq,
          not_false_eq_true, if_true] at hj
        cases j with
        | zero => omega
        | succ k => simpa using ih k (by omega)
    · simp only [where_last_succ, h0, if_false] at hj
      cases j with
      | zero => omega
      | succ k => simpa using ih k (by omega)

theorem last_pos_le (click : List ℕ) : last_pos click ≤ click.length := by
  unfold last_pos
  split
  · exact le_refl _
  · exact where_last_succ_le click

theorem one_le_last_pos (click : List ℕ) (h : click ≠ []) :
    1 ≤ last_pos click := by
  unfold last_pos
  split
  · have : click.length ≠ 0 := fun hh => h (List.length_eq_zero.mp hh)
    omega
  · rename_i hs
    have : where_last_succ click ≠ 0 :=
      fun h0 => hs ((where_last_succ_eq_zero_iff click).mp h0)
    omega

/-- C3: if the click vector has a click, the kept length `last_pos` is
one past the last click (the entry just before it is a click and every
entry from `last_pos` on is zero); if it is all zeros, the kept length
is the full length; and the kept labels recorded for the query are
exactly the first `last_pos` entries of the click vector. -/
theorem truncation_point_spec (click : List ℕ) :
    (click.sum ≠ 0 →
      last_pos click - 1 < click.length ∧
      click.getD (last_pos click - 1) 0 ≠ 0 ∧
      ∀ j, last_pos click ≤ j → click.getD j 0 = 0) ∧
    (click.sum = 0 → last_pos click = click.length) ∧
    ∀ (qset : QSet) (st : OnlineLTRState) (query_ids : List ℕ)
      (rankings : List (List ℕ)),
      Option.map Entry.train_labels
        (generate_training_data_from_clicks qset st query_ids [click]
          rankings).observed_training_data.getLast?
        = some (click.take (last_pos click)) := by
  refine ⟨fun hs => ?_, fun hs => ?_, fun qset st query_ids rankings => ?_⟩
  · have hw : where_last_succ click ≠ 0 :=
      fun h0 => hs ((where_last_succ_eq_zero_iff click).mp h0)
    have hle := where_last_succ_le click
    have hlp : last_pos click = where_last_succ click := by
      unfold last_pos
      split
      · exact absurd (by assumption) hs
      · rfl
    refine ⟨by omega, ?_, ?_⟩
    · rw [hlp]; exact where_last_succ_getD click hw
    · intro j hj
      rw [hlp] at hj
      exact where_last_succ_zero_after click j hj
  · unfold last_pos
    split
    · rfl
    · exact absurd hs (by assumption)
  · simp [generate_training_data_from_clicks]

theorem truncation_point_spec_witness :
    ([0, 1, 0] : List ℕ).getD (last_pos [0, 1, 0] - 1) 0 ≠ 0 ∧
    last_pos ([0, 0] : List ℕ) = 2 :=
  ⟨((truncation_point_spec [0, 1, 0]).1 (by decide)).2.1,
   (truncation_point_spec [0, 0]).2.1 (by decide)⟩

/-- C7: for a query whose click vector and ranking both have the
query's document count as length (and at least one document), the
truncation point `t` satisfies `1 ≤ t ≤ document_count`, and the kept
global row indices and kept click labels both have length exactly
`t`. -/
theorem truncation_alignment_spec (qset : QSet) (qid : ℕ)
    (click ranking : List ℕ)
    (hclick : click.length = qset.document_count qid)
    (hrank : ranking.length = qset.document_count qid)
    (hne : click ≠ []) :
    1 ≤ last_pos click ∧ last_pos click ≤ qset.document_count qid ∧
    (per_query_indices qset qid click ranking).length = last_pos click ∧
    (click.take (last_pos click)).length = last_pos click := by
  have hle := last_pos_le click
  refine ⟨one_le_last_pos click hne, by omega, ?_, ?_⟩
  · simp only [per_query_indices, List.length_map, List.length_take]
    omega
  · rw [List.length_take]
    omega

theorem truncation_alignment_spec_witness :
    1 ≤ last_pos [1, 0] ∧
    last_pos [1, 0] ≤ QSet.document_count ⟨1, fun _ => 2, fun q => 2 * q,
      fun _ => [0, 1]⟩ 0 ∧
    (per_query_indices ⟨1, fun _ => 2, fun q => 2 * q, fun _ => [0, 1]⟩ 0
      [1, 0] [1, 0]).length = last_pos [1, 0] ∧
    (([1, 0] : List ℕ).take (last_pos [1, 0])).length = last_pos [1, 0] :=
  truncation_alignment_spec ⟨1, fun _ => 2, fun q => 2 * q, fun _ => [0, 1]⟩
    0 [1, 0] [1, 0] rfl rfl (by decide)

theorem per_query_indices_mem_range (qset : QSet) (qid : ℕ)
    (click ranking : List ℕ)
    (hconsec : qset.query_indptr (qid + 1)
      = qset.query_indptr qid + qset.document_count qid)
    (hrank : ∀ x ∈ ranking, x < qset.document_count qid) :
    ∀ idx ∈ per_query_indices qset qid click ranking,
      qset.query_indptr qid ≤ idx ∧ idx < qset.query_indptr (qid + 1) := by
  intro idx hidx
  simp only [per_query_indices, List.mem_map] at hidx
  obtain ⟨x, hx, rfl⟩ := hidx
  have hxd := hrank x (List.take_subset _ _ hx)
  omega

theorem zip_zipWith_indices_bounds (qset : QSet) :
    ∀ (query_ids : List ℕ) (clicks rankings : List (List ℕ)),
    (∀ qid ∈ query_ids, qset.query_indptr (qid + 1)
      = qset.query_indptr qid + qset.document_count qid) →
    (∀ qcr ∈ query_ids.zip (clicks.zip rankings),
      ∀ x ∈ qcr.2.2, x < qset.document_count qcr.1) →
    ∀ p ∈ query_ids.zip (List.zipWith
        (fun qid cr => per_query_indices qset qid cr.1 cr.2)
        query_ids (clicks.zip rankings)),
      ∀ idx ∈ p.2, qset.query_indptr p.1 ≤ idx ∧
        idx < qset.query_indptr (p.1 + 1)
  | [], _, _, _, _ => by simp
  | q :: qs, [], _, _, _ => by simp
  | q :: qs, c :: cs, [], _, _ => by simp
  | q :: qs, c :: cs, r :: rs, hconsec, hrank => by
    intro p hp idx hidx
    simp only [List.zip_cons_cons, List.zipWith_cons_cons, List.mem_cons]
      at hp
    rcases hp with rfl | hp
    · exact per_query_indices_mem_range qset q c r
        (hconsec q (List.mem_cons_self _ _))
        (fun x hx => hrank (q, c, r) (List.mem_cons_self _ _) x hx) idx hidx
    · exact zip_zipWith_indices_bounds qset qs cs rs
        (fun qid hq => hconsec qid (List.mem_cons_of_mem _ hq))
        (fun qcr hq => hrank qcr (List.mem_cons_of_mem _ hq)) p hp idx hidx

/-- C4: in the training-history entry appended by
`generate_training_data_from_clicks`, every global row index recorded
for a sampled query `qid` lies in
`[query_indptr qid, query_indptr (qid + 1))`, provided each ranking is
over that query's local document indices and the offsets are
consecutive. -/
theorem index_remapping_spec (qset : QSet) (st : OnlineLTRState)
    (query_ids : List ℕ) (clicks rankings : List (List ℕ))
    (hconsec : ∀ qid ∈ query_ids, qset.query_indptr (qid + 1)
      = qset.query_indptr qid + qset.document_count qid)
    (hrank : ∀ qcr ∈ query_ids.zip (clicks.zip rankings),
      ∀ x ∈ qcr.2.2, x < qset.document_count qcr.1) :
    ∀ e ∈ (generate_training_data_from_clicks qset st query_ids clicks
        rankings).observed_training_data.drop
        st.observed_training_data.length,
      ∀ p ∈ query_ids.zip e.train_indices, ∀ idx ∈ p.2,
        qset.query_indptr p.1 ≤ idx ∧ idx < qset.query_indptr (p.1 + 1) := by
  intro e he
  simp only [generate_training_data_from_clicks] at he
  rw [List.drop_left] at he
  simp only [List.mem_singleton] at he
  subst he
  exact zip_zipWith_indices_bounds qset query_ids clicks rankings hconsec
    hrank

theorem index_remapping_spec_witness :
    QSet.query_indptr ⟨2, fun _ => 2, fun q => 2 * q, fun _ => []⟩ 1 ≤ 2 ∧
    2 < QSet.query_indptr ⟨2, fun _ => 2, fun q => 2 * q, fun _ => []⟩
      (1 + 1) :=
  index_remapping_spec ⟨2, fun _ => 2, fun q => 2 * q, fun _ => []⟩ ⟨[]⟩
    [0, 1] [[1, 0], [0, 1]] [[1, 0], [0, 1]] (by decide) (by decide)
    ⟨[[1], [2, 3]], [1, 0, 1], [1, 2]⟩ (by decide) (1, [2, 3]) (by decide)
    2 (by decide)

/-- C8: calling `update_ranker` with an empty observed history raises a
`ValueError` reported to the caller, and calling it with a non-empty
history succeeds in assembling the training data. -/
theorem update_ranker_empty_history_spec (st : OnlineLTRState) :
    (st.observed_training_data = [] →
      ∃ msg, update_ranker st = Except.error msg) ∧
    (st.observed_training_data ≠ [] →
      ∃ td, update_ranker st = Except.ok td) := by
  constructor
  · intro h
    unfold update_ranker
    rw [h]
    exact ⟨_, rfl⟩
  · intro h
    have hfalse : st.observed_training_data.isEmpty = false := by
      simpa using h
    unfold update_ranker
    rw [hfalse]
    exact ⟨_, rfl⟩

theorem update_ranker_empty_history_spec_witness :
    (∃ msg, update_ranker ⟨[]⟩ = Except.error msg) ∧
    (∃ td, update_ranker ⟨[⟨[[0]], [1], [1]⟩]⟩ = Except.ok td) :=
  ⟨(update_ranker_empty_history_spec ⟨[]⟩).1 rfl,
   (update_ranker_empty_history_spec ⟨[⟨[[0]], [1], [1]⟩]⟩).2 (by decide)⟩

/-- C10: `ExploreThenExploitOLTR.update_ranker` increments the
iteration counter before delegating, so when the delegated retraining
fails on an empty history the error propagates with the counter already
advanced by one. -/
theorem ete_update_ranker_advances_on_error (st : EteState)
    (h : st.observed_training_data = []) :
    (∃ msg, (ete_update_ranker st).2 = Except.error msg) ∧
    (ete_update_ranker st).1.iteration = st.iteration + 1 := by
  constructor
  · show ∃ msg, update_ranker ⟨st.observed_training_data⟩ = Except.error msg
    rw [h]
    exact ⟨_, rfl⟩
  · rfl

theorem ete_update_ranker_advances_on_error_witness :
    (∃ msg, (ete_update_ranker ⟨2, 5, []⟩).2 = Except.error msg) ∧
    (ete_update_ranker ⟨2, 5, []⟩).1.iteration = 5 + 1 :=
  ete_update_ranker_advances_on_error ⟨2, 5, []⟩ rfl

/-- C2: for an `ExploreThenExploitOLTR` with threshold
`num_explore_iterations`, a supplied ranker is replaced by `None` when
collecting feedback iff `iteration < num_explore_iterations`; feedback
collection leaves the iteration counter unchanged no matter how many
queries were sampled, while one `update_ranker` call advances it by
exactly one. -/
theorem ete_schedule_spec {R : Type} (st : EteState) (ranker : R)
    (qset : QSet) (query_ids : List ℕ) (clicks rankings : List (List ℕ)) :
    (ete_select_ranker st (some ranker) = none ↔
      st.iteration < st.num_explore_iterations) ∧
    (ete_generate_training_data qset st query_ids clicks
      rankings).iteration = st.iteration ∧
    (ete_update_ranker st).1.iteration = st.iteration + 1 := by
  refine ⟨?_, rfl, rfl⟩
  by_cases h : st.iteration < st.num_explore_iterations
  · simp [ete_select_ranker, h]
  · simp [ete_select_ranker, h]

/-- The single history entry that one
`generate_training_data_from_clicks` call appends for the call
`(query_ids, clicks, rankings)`. -/
def call_entry (qset : QSet) (c : List ℕ × List (List ℕ) × List (List ℕ)) :
    Entry :=
  ⟨List.zipWith (fun qid cr => per_query_indices qset qid cr.1 cr.2)
      c.1 (c.2.1.zip c.2.2),
    (c.2.1.map (fun k => k.take (last_pos k))).flatten,
    (List.zipWith (fun qid cr => per_query_indices qset qid cr.1 cr.2)
      c.1 (c.2.1.zip c.2.2)).map List.length⟩

theorem run_feedback_calls_history (qset : QSet)
    (calls : List (List ℕ × List (List ℕ) × List (List ℕ))) :
    ∀ st : OnlineLTRState,
    (run_feedback_calls qset st calls).observed_training_data
      = st.observed_training_data ++ calls.map (call_entry qset) := by
  induction calls with
  | nil => intro st; simp [run_feedback_calls]
  | cons call rest ih =>
    intro st
    simp only [run_feedback_calls]
    rw [ih]
    simp [generate_training_data_from_clicks, call_entry,
      List.append_assoc]

/-- C1 counterexample: two feedback-collection calls with 2 and 3
sampled queries leave the observed history with 2 entries (one per
call), not `2 + 3` entries (one per sampled query per call). -/
theorem history_accumulation_counterexample :
    (run_feedback_calls ⟨2, fun _ => 1, fun q => q, fun _ => [1]⟩ ⟨[]⟩
      [([0, 1], [[1], [1]], [[0], [0]]),
       ([0, 1, 0], [[1], [1], [1]], [[0], [0], [0]])]
      ).observed_training_data.length = 2 ∧ (2 : ℕ) ≠ 2 + 3 := by
  constructor
  · rfl
  · decide

/-- C1 (amended): after `N` feedback-collection calls with query counts
`q1..qN`, the observed history gains exactly `N` entries, one per call;
each entry carries one per-query batch per sampled query, so the
history carries `q1+...+qN` per-query batches in total; and
`update_ranker` then trains on the concatenation of every batch of
every entry. -/
theorem history_accumulation_amended (qset : QSet) (st : OnlineLTRState)
    (calls : List (List ℕ × List (List ℕ) × List (List ℕ)))
    (hlen : ∀ c ∈ calls, c.2.1.length = c.1.length ∧
      c.2.2.length = c.1.length) :
    (run_feedback_calls qset st calls).observed_training_data.length
      = st.observed_training_data.length + calls.length ∧
    ((run_feedback_calls qset st calls).observed_training_data.map
        (fun e => e.train_indices.length)).sum
      = (st.observed_training_data.map
          (fun e => e.train_indices.length)).sum
        + (calls.map (fun c => c.1.length)).sum ∧
    (calls ≠ [] → ∃ td,
      update_ranker (run_feedback_calls qset st calls) = Except.ok td ∧
      td.train_indices
        = ((run_feedback_calls qset st calls).observed_training_data.map
            Entry.train_indices).flatten) := by
  refine ⟨?_, ?_, ?_⟩
  · rw [run_feedback_calls_history]
    simp [List.length_append]
  · rw [run_feedback_calls_history]
    simp only [List.map_append, List.sum_append, List.map_map]
    have hpt : calls.map ((fun e => e.train_indices.length) ∘
        call_entry qset) = calls.map (fun c => c.1.length) := by
      apply List.map_congr_left
      intro c hc
      have hc' := hlen c hc
      simp only [Function.comp_apply, call_entry, List.length_zipWith,
        List.length_zip]
      omega
    rw [hpt]
  · intro hc
    have hne : (run_feedback_calls qset st calls).observed_training_data
        ≠ [] := by
      rw [run_feedback_calls_history]
      intro hh
      have hl := congrArg List.length hh
      simp only [List.length_append, List.length_map, List.length_nil]
        at hl
      exact hc (List.length_eq_zero.mp (by omega))
    have hfalse : (run_feedback_calls qset st
        calls).observed_training_data.isEmpty = false := by
      simpa using hne
    refine ⟨⟨((run_feedback_calls qset st calls).observed_training_data.map
        Entry.train_indices).flatten,
      ((run_feedback_calls qset st calls).observed_training_data.map
        Entry.train_labels).flatten,
      ((run_feedback_calls qset st calls).observed_training_data.map
        Entry.train_q_list_sizes).flatten⟩, ?_, rfl⟩
    unfold update_ranker
    rw [hfalse]
    rfl

theorem history_accumulation_amended_witness :
    (run_feedback_calls ⟨2, fun _ => 1, fun q => q, fun _ => [1]⟩ ⟨[]⟩
      [([0], [[1]], [[0]]), ([0, 1], [[1], [1]], [[0], [0]])]
      ).observed_training_data.length
      = (⟨[]⟩ : OnlineLTRState).observed_training_data.length + 2 :=
  (history_accumulation_amended ⟨2, fun _ => 1, fun q => q, fun _ => [1]⟩
    ⟨[]⟩ [([0], [[1]], [[0]]), ([0, 1], [[1], [1]], [[0], [0]])]
    (by decide)).1

/-- C6 counterexample: the click model succeeds on the first sampled
query (it maps that query's displayed labels `[3]` to a click vector)
but raises on the second; the whole feedback-collection call then
propagates the error with the observed history still empty — no entry
for the already-processed first query was appended. -/
theorem feedback_independence_counterexample :
    (update_learner_collect ⟨2, fun _ => 1, fun q => q, fun _ => []⟩
      (fun l => if l = [5] then none else some (l.map (fun _ => 1)))
      ⟨[]⟩ [0, 1] [[3], [5]] [[0], [0]]
      = Except.error ⟨[]⟩) ∧
    (fun l => if l = [5] then none else some (l.map (fun _ => 1)))
      ([3] : List ℕ) = some [1] :=
  ⟨rfl, rfl⟩

/-- C6 (amended): a feedback-collection call is atomic, not per-query
independent: if the click model raises on any sampled query, the error
propagates with the observed history unchanged (no entry from the call,
not even for queries whose clicks were already computed); only a fully
successful call appends — and it appends exactly one entry for the
whole call. -/
theorem feedback_call_atomic (qset : QSet)
    (click_model : List ℕ → Option (List ℕ)) (st : OnlineLTRState)
    (query_ids : List ℕ) (labels rankings : List (List ℕ)) :
    (∀ st', update_learner_collect qset click_model st query_ids labels
        rankings = Except.error st' →
      st'.observed_training_data = st.observed_training_data) ∧
    (∀ st', update_learner_collect qset click_model st query_ids labels
        rankings = Except.ok st' →
      st'.observed_training_data.length
        = st.observed_training_data.length + 1) := by
  unfold update_learner_collect
  cases apply_click_model_to_labels_and_scores click_model labels
      rankings with
  | none =>
    constructor
    · intro st' h
      injection h with h'
      rw [← h']
    · intro st' h
      exact Except.noConfusion h
  | some clicks =>
    constructor
    · intro st' h
      exact Except.noConfusion h
    · intro st' h
      injection h with h'
      rw [← h']
      simp [generate_training_data_from_clicks]

theorem feedback_call_atomic_witness :
    (⟨[]⟩ : OnlineLTRState).observed_training_data
      = (⟨[]⟩ : OnlineLTRState).observed_training_data ∧
    (generate_training_data_from_clicks ⟨1, fun _ => 1, fun q => q,
      fun _ => []⟩ ⟨[]⟩ [0] [[1]] [[0]]).observed_training_data.length
      = (⟨[]⟩ : OnlineLTRState).observed_training_data.length + 1 :=
  ⟨(feedback_call_atomic ⟨1, fun _ => 1, fun q => q, fun _ => []⟩
      (fun _ => none) ⟨[]⟩ [0] [[1]] [[0]]).1 ⟨[]⟩ rfl,
   (feedback_call_atomic ⟨1, fun _ => 1, fun q => q, fun _ => []⟩
      (fun l => some (l.map (fun _ => 1))) ⟨[]⟩ [0] [[1]] [[0]]).2
     (generate_training_data_from_clicks ⟨1, fun _ => 1, fun q => q,
       fun _ => []⟩ ⟨[]⟩ [0] [[1]] [[0]]) rfl⟩

/-- C5: an exploitation ranking is a permutation of the query's local
document indices, every pair of ranked documents is ordered by (score
descending, tie-breaker ascending), and when all predicted scores of
the query are distinct the ranking is exactly the strictly
descending-score order. -/
theorem exploitation_ranking_spec (scores ties : List ℚ) :
    (lexsort_ranking scores ties).Perm (List.range scores.length) ∧
    (lexsort_ranking scores ties).Pairwise (fun i j =>
      scores.getD j 0 < scores.getD i 0 ∨
      (scores.getD i 0 = scores.getD j 0 ∧
        ties.getD i 0 ≤ ties.getD j 0)) ∧
    ((∀ i < scores.length, ∀ j < scores.length, i ≠ j →
        scores.getD i 0 ≠ scores.getD j 0) →
      (lexsort_ranking scores ties).Pairwise (fun i j =>
        scores.getD j 0 < scores.getD i 0)) := by
  have hperm : (lexsort_ranking scores ties).Perm
      (List.range scores.length) := List.mergeSort_perm _ _
  have htrans : ∀ a b c : ℕ,
      decide (scores.getD b 0 < scores.getD a 0 ∨
        (scores.getD a 0 = scores.getD b 0 ∧
          ties.getD a 0 ≤ ties.getD b 0)) = true →
      decide (scores.getD c 0 < scores.getD b 0 ∨
        (scores.getD b 0 = scores.getD c 0 ∧
          ties.getD b 0 ≤ ties.getD c 0)) = true →
      decide (scores.getD c 0 < scores.getD a 0 ∨
        (scores.getD a 0 = scores.getD c 0 ∧
          ties.getD a 0 ≤ ties.getD c 0)) = true := by
    intro a b c hab hbc
    simp only [decide_eq_true_eq] at hab hbc ⊢
    rcases hab with h1 | ⟨h1, h2⟩ <;> rcases hbc with h3 | ⟨h3, h4⟩
    · exact Or.inl (h3.trans h1)
    · exact Or.inl (by rw [← h3]; exact h1)
    · exact Or.inl (by rw [h1]; exact h3)
    · exact Or.inr ⟨h1.trans h3, h2.trans h4⟩
  have htotal : ∀ a b : ℕ,
      (decide (scores.getD b 0 < scores.getD a 0 ∨
        (scores.getD a 0 = scores.getD b 0 ∧
          ties.getD a 0 ≤ ties.getD b 0)) ||
       decide (scores.getD a 0 < scores.getD b 0 ∨
        (scores.getD b 0 = scores.getD a 0 ∧
          ties.getD b 0 ≤ ties.getD a 0))) = true := by
    intro a b
    simp only [Bool.or_eq_true, decide_eq_true_eq]
    rcases lt_trichotomy (scores.getD a 0) (scores.getD b 0) with h | h | h
    · exact Or.inr (Or.inl h)
    · rcases le_total (ties.getD a 0) (ties.getD b 0) with ht | ht
      · exact Or.inl (Or.inr ⟨h, ht⟩)
      · exact Or.inr (Or.inr ⟨h.symm, ht⟩)
    · exact Or.inl (Or.inl h)
  have hpw : (lexsort_ranking scores ties).Pairwise (fun i j =>
      scores.getD j 0 < scores.getD i 0 ∨
      (scores.getD i 0 = scores.getD j 0 ∧
        ties.getD i 0 ≤ ties.getD j 0)) := by
    have hs := List.sorted_mergeSort htrans htotal
      (List.range scores.length)
    exact hs.imp (fun h => by simpa using h)
  refine ⟨hperm, hpw, fun hdist => ?_⟩
  have hnodup : (lexsort_ranking scores ties).Nodup :=
    hperm.nodup_iff.mpr (List.nodup_range _)
  have hmem : ∀ x ∈ lexsort_ranking scores ties, x < scores.length := by
    intro x hx
    simpa using hperm.mem_iff.mp hx
  refine List.Pairwise.imp_of_mem ?_ (hpw.and hnodup)
  intro a b ha hb h
  rcases h.1 with h1 | ⟨h1, _⟩
  · exact h1
  · exact absurd h1 (hdist a (hmem a ha) b (hmem b hb) h.2)

theorem exploitation_ranking_spec_witness :
    (lexsort_ranking [1, 3, 2] [0, 0, 0]).Pairwise (fun i j =>
      ([1, 3, 2] : List ℚ).getD j 0 < ([1, 3, 2] : List ℚ).getD i 0) :=
  (exploitation_ranking_spec [1, 3, 2] [0, 0, 0]).2.2 (by decide)

/-- C9: when the metric returns the constant `c` on every input,
`evaluate_ranker` returns exactly `c` (the arithmetic mean of the
per-query metric values) for any non-empty query selection. -/
theorem evaluation_metric_mean (qset : QSet) (scores tie_breakers : List ℚ)
    (metric : List ℕ → ℕ → ℚ) (cutoff : ℕ) (c : ℚ)
    (hmetric : ∀ rel k, metric rel k = c) (hq : 0 < qset.n_queries) :
    evaluate_ranker qset scores tie_breakers metric cutoff = c := by
  have hn : (qset.n_queries : ℚ) ≠ 0 := Nat.cast_ne_zero.mpr hq.ne'
  simp only [evaluate_ranker, np_mean, hmetric, List.map_const',
    List.sum_replicate, List.length_replicate, List.length_range,
    nsmul_eq_mul]
  rw [mul_div_cancel_left₀ _ hn]

theorem evaluation_metric_mean_witness :
    evaluate_ranker ⟨1, fun _ => 1, fun q => q, fun _ => [0]⟩ [0] [0]
      (fun _ _ => 7) 10 = 7 :=
  evaluation_metric_mean ⟨1, fun _ => 1, fun q => q, fun _ => [0]⟩ [0] [0]
    (fun _ _ => 7) 10 7 (fun _ _ => rfl) (by decide)
